import Mathlib

/-!
Verification of the url-parser application logic (src/src/App.tsx).

The development shallowly embeds the three logical components of the
repository: the URL decomposer (`parseUrl`), the parameter comparator
(`paramsEqual`, `allSame`, `getDifferentParamKeys`) and the state codec
(the query-string sync effect and `getInitialUrls` / `getInitialNotes`).
JavaScript objects (`Record<string, string>`) are embedded as association
lists with unique keys, `URLSearchParams` as an association list queried
by first match, and nullable values as `Option`.
-/

namespace UrlParser

/-- One URL+note input pair (spec: `UrlSlot`). -/
structure UrlSlot where
  url : String
  note : String
deriving DecidableEq

/-- `URLSearchParams.get` / JS object property access: the value stored
under a key, `none` when the key is absent (first match wins; the maps we
build never hold duplicate keys). -/
def qget (q : List (String × String)) (k : String) : Option String :=
  (q.find? (fun p => p.1 == k)).map (fun p => p.2)

/-- The query-string sync effect (App.tsx lines 111-117): for the slot at
1-based index `i`, emit key `url{i}` only when the url field is truthy
(non-empty) and `note{i}` only when the note field is truthy. -/
def encodeFrom : Nat → List UrlSlot → List (String × String)
  | _, [] => []
  | i, s :: rest =>
      (if s.url ≠ "" then [("url" ++ toString i, s.url)] else []) ++
      (if s.note ≠ "" then [("note" ++ toString i, s.note)] else []) ++
      encodeFrom (i + 1) rest

/-- The encoder of the state codec: serialize slots into the flat
query-string mapping, starting at index 1. -/
def encode (slots : List UrlSlot) : List (String × String) :=
  encodeFrom 1 slots

/-- `getInitialUrls` (App.tsx lines 46-54): read `url1..url3`, keep the
truthy values (drop `null` and `""`), and default to a single empty slot
when nothing survives. The query mapping is passed as its `get` function. -/
def getInitialUrls (get : String → Option String) : List String :=
  let urls := ([get "url1", get "url2", get "url3"].filterMap id).filter
    (fun s => s != "")
  if urls.length > 0 then urls else [""]

/-- `getInitialNotes` (App.tsx lines 56-64): read `note1..note3` and keep
the truthy values; no default. -/
def getInitialNotes (get : String → Option String) : List String :=
  ([get "note1", get "note2", get "note3"].filterMap id).filter
    (fun s => s != "")

/-- The slot list the application assembles from the two decoded lists:
slot `i` pairs `urls[i]` with `notes[i]` (empty string when the note is
absent), per the rendering (App.tsx line 304, `notes[i] || ""`) and the
note-length sync effect (lines 99-108). -/
def decodeSlots (get : String → Option String) : List UrlSlot :=
  (List.range (getInitialUrls get).length).map
    (fun i => ⟨(getInitialUrls get).getD i "", (getInitialNotes get).getD i ""⟩)

theorem qget_nil (k : String) : qget [] k = none := rfl

theorem qget_cons (k' v k : String) (q : List (String × String)) :
    qget ((k', v) :: q) k = if (k' == k) = true then some v else qget q k := by
  by_cases h : (k' == k) = true <;> simp [qget, List.find?_cons, h]

theorem qget_if_append (c : Prop) [Decidable c] (k' v k : String)
    (q : List (String × String)) :
    qget ((if c then [(k', v)] else []) ++ q) k =
      if c ∧ (k' == k) = true then some v else qget q k := by
  by_cases hc : c <;> by_cases hk : (k' == k) = true <;>
    simp [hc, hk, qget_cons]

theorem qget_if (c : Prop) [Decidable c] (k' v k : String) :
    qget (if c then [(k', v)] else []) k =
      if c ∧ (k' == k) = true then some v else none := by
  by_cases hc : c <;> by_cases hk : (k' == k) = true <;>
    simp [hc, hk, qget_cons, qget_nil]

theorem qget_if_append_neg (c : Prop) [Decidable c] (k' v k : String)
    (q : List (String × String)) :
    qget ((if c then [] else [(k', v)]) ++ q) k =
      if ¬c ∧ (k' == k) = true then some v else qget q k := by
  by_cases hc : c <;> by_cases hk : (k' == k) = true <;>
    simp [hc, hk, qget_cons]

theorem qget_if_neg (c : Prop) [Decidable c] (k' v k : String) :
    qget (if c then [] else [(k', v)]) k =
      if ¬c ∧ (k' == k) = true then some v else none := by
  by_cases hc : c <;> by_cases hk : (k' == k) = true <;>
    simp [hc, hk, qget_cons, qget_nil]

theorem urlKey_one : ("url" ++ toString (1 : Nat) : String) = "url1" := rfl

theorem urlKey_two : ("url" ++ toString (2 : Nat) : String) = "url2" := rfl

theorem urlKey_three : ("url" ++ toString (3 : Nat) : String) = "url3" := rfl

theorem noteKey_one : ("note" ++ toString (1 : Nat) : String) = "note1" := rfl

theorem noteKey_two : ("note" ++ toString (2 : Nat) : String) = "note2" := rfl

theorem noteKey_three : ("note" ++ toString (3 : Nat) : String) = "note3" := rfl

/-- C9: when none of `url1`, `url2`, `url3` is present in the input
mapping, the decoder yields exactly one slot, and that slot's url is the
empty string — the default starting state, never zero slots. -/
theorem decode_empty_default (get : String → Option String)
    (h1 : get "url1" = none) (h2 : get "url2" = none) (h3 : get "url3" = none) :
    (decodeSlots get).map UrlSlot.url = [""] := by
  simp [decodeSlots, getInitialUrls, h1, h2, h3, List.range_succ]

/-- Witness for C9 at the empty mapping. -/
theorem decode_empty_default_witness :
    (decodeSlots (fun _ => none)).map UrlSlot.url = [""] :=
  decode_empty_default (fun _ => none) rfl rfl rfl

theorem map_getD_range {α : Type} (l : List α) (d : α) :
    (List.range l.length).map (fun i => l.getD i d) = l := by
  apply List.ext_getElem
  · simp
  · intro i h1 h2
    simp [List.getD_eq_getElem?_getD, List.getElem?_eq_getElem h2]

theorem decodeSlots_url_count (get : String → Option String) :
    ((decodeSlots get).filter (fun s => s.url != "")).length =
      ((getInitialUrls get).filter (fun s => s != "")).length := by
  conv_rhs => rw [← map_getD_range (getInitialUrls get) ""]
  simp only [decodeSlots, List.filter_map, List.length_map, Function.comp_def]

theorem codec_decode_urls (slots : List UrlSlot)
    (h1 : 1 ≤ slots.length) (h3 : slots.length ≤ 3) :
    ((getInitialUrls (qget (encode slots))).filter (fun s => s != "")) =
      ((slots.map UrlSlot.url).filter (fun s => s != "")) := by
  rcases slots with _ | ⟨a, _ | ⟨b, _ | ⟨c, _ | ⟨d, t⟩⟩⟩⟩
  · simp at h1
  · by_cases ha : a.url = "" <;>
      simp [encode, encodeFrom, urlKey_one, noteKey_one,
        qget_if_append, qget_if, qget_if_append_neg, qget_if_neg, qget_cons, qget_nil, getInitialUrls, ha]
  · by_cases ha : a.url = "" <;> by_cases hb : b.url = "" <;>
      simp [encode, encodeFrom, urlKey_one, noteKey_one, urlKey_two,
        noteKey_two, qget_if_append, qget_if, qget_if_append_neg, qget_if_neg, qget_cons, qget_nil, getInitialUrls, ha, hb]
  · by_cases ha : a.url = "" <;> by_cases hb : b.url = "" <;>
      by_cases hc : c.url = "" <;>
      simp [encode, encodeFrom, urlKey_one, noteKey_one, urlKey_two,
        noteKey_two, urlKey_three, noteKey_three, qget_if_append, qget_if, qget_if_append_neg, qget_if_neg, qget_cons, qget_nil,
        getInitialUrls, ha, hb, hc]
  · simp only [List.length_cons] at h3
    omega

theorem codec_decode_notes (slots : List UrlSlot)
    (h1 : 1 ≤ slots.length) (h3 : slots.length ≤ 3) :
    getInitialNotes (qget (encode slots)) =
      ((slots.map UrlSlot.note).filter (fun s => s != "")) := by
  rcases slots with _ | ⟨a, _ | ⟨b, _ | ⟨c, _ | ⟨d, t⟩⟩⟩⟩
  · simp at h1
  · by_cases ha : a.note = "" <;>
      simp [encode, encodeFrom, urlKey_one, noteKey_one,
        qget_if_append, qget_if, qget_if_append_neg, qget_if_neg, qget_cons, qget_nil, getInitialNotes, ha]
  · by_cases ha : a.note = "" <;> by_cases hb : b.note = "" <;>
      simp [encode, encodeFrom, urlKey_one, noteKey_one, urlKey_two,
        noteKey_two, qget_if_append, qget_if, qget_if_append_neg, qget_if_neg, qget_cons, qget_nil, getInitialNotes, ha, hb]
  · by_cases ha : a.note = "" <;> by_cases hb : b.note = "" <;>
      by_cases hc : c.note = "" <;>
      simp [encode, encodeFrom, urlKey_one, noteKey_one, urlKey_two,
        noteKey_two, urlKey_three, noteKey_three, qget_if_append, qget_if, qget_if_append_neg, qget_if_neg, qget_cons, qget_nil,
        getInitialNotes, ha, hb, hc]
  · simp only [List.length_cons] at h3
    omega

/-- C1: round-trip of the state codec. For every slot list of length 1-3,
decoding the encoded query mapping preserves the non-empty url values and
the non-empty note values in their relative order, and the decoded slot
list carries the same count of url-bearing (non-empty-url) slots. -/
theorem codec_roundtrip (slots : List UrlSlot)
    (h1 : 1 ≤ slots.length) (h3 : slots.length ≤ 3) :
    ((getInitialUrls (qget (encode slots))).filter (fun s => s != "")) =
      ((slots.map UrlSlot.url).filter (fun s => s != "")) ∧
    getInitialNotes (qget (encode slots)) =
      ((slots.map UrlSlot.note).filter (fun s => s != "")) ∧
    ((decodeSlots (qget (encode slots))).filter (fun s => s.url != "")).length =
      (slots.filter (fun s => s.url != "")).length := by
  refine ⟨codec_decode_urls slots h1 h3, codec_decode_notes slots h1 h3, ?_⟩
  rw [decodeSlots_url_count, codec_decode_urls slots h1 h3, List.filter_map]
  simp [Function.comp_def]

/-- Witness for C1 at a concrete two-slot list with one empty url. -/
theorem codec_roundtrip_witness :
    ((getInitialUrls (qget (encode [⟨"https://a.example", "first"⟩, ⟨"", "second"⟩]))).filter
        (fun s => s != "")) =
      (([⟨"https://a.example", "first"⟩, ⟨"", "second"⟩].map UrlSlot.url).filter
        (fun s => s != "")) ∧
    getInitialNotes (qget (encode [⟨"https://a.example", "first"⟩, ⟨"", "second"⟩])) =
      (([⟨"https://a.example", "first"⟩, ⟨"", "second"⟩].map UrlSlot.note).filter
        (fun s => s != "")) ∧
    ((decodeSlots (qget (encode [⟨"https://a.example", "first"⟩, ⟨"", "second"⟩]))).filter
        (fun s => s.url != "")).length =
      (([⟨"https://a.example", "first"⟩, ⟨"", "second"⟩] : List UrlSlot).filter
        (fun s => s.url != "")).length :=
  codec_roundtrip [⟨"https://a.example", "first"⟩, ⟨"", "second"⟩]
    (by decide) (by decide)

/-- A concrete query mapping holding only `url2 ↦ "u"` and `note1 ↦ "n"`. -/
def crossedQuery : String → Option String := fun k =>
  if k = "url2" then some "u" else if k = "note1" then some "n" else none

/-- C2 counterexample: decoding `{url2 ↦ "u", note1 ↦ "n"}` produces one
slot whose url came from key `url2`, yet its note is the value of `note1`;
the note whose index matches the slot's url key (`note2`) is absent, so the
claimed pairing would give this slot an empty note, not `"n"`. -/
theorem decode_note_key_mismatch :
    decodeSlots crossedQuery = [⟨"u", "n"⟩] ∧
    crossedQuery "note2" = none ∧ ("n" : String) ≠ "" := by
  refine ⟨?_, rfl, by decide⟩
  decide

/-- C2 amended: `decode` compacts the note values independently of the
urls (in key order `note1..note3`, dropping absent and empty values) and
pairs them with the produced slots positionally — the i-th slot carries
the i-th surviving note, regardless of the numeric suffix of the keys the
values came from; the number of slots is determined by the url keys
alone, so a note key with no corresponding slot position never surfaces
as a slot of its own. -/
theorem decode_note_alignment (get get' : String → Option String) :
    (decodeSlots get).length = (getInitialUrls get).length ∧
    (∀ i, i < (decodeSlots get).length →
      ((decodeSlots get).getD i ⟨"", ""⟩).note = (getInitialNotes get).getD i "") ∧
    (get "url1" = get' "url1" → get "url2" = get' "url2" →
      get "url3" = get' "url3" →
      (decodeSlots get).length = (decodeSlots get').length) := by
  refine ⟨by simp [decodeSlots], ?_, ?_⟩
  · intro i hi
    simp only [decodeSlots, List.length_map, List.length_range] at hi
    simp [decodeSlots, List.getD_eq_getElem?_getD, List.getElem?_eq_getElem, hi]
  · intro h1 h2 h3
    simp [decodeSlots, getInitialUrls, h1, h2, h3]

/-- Witness for C2's amended claim at the crossed mapping. -/
theorem decode_note_alignment_witness :
    ((decodeSlots crossedQuery).getD 0 ⟨"", ""⟩).note =
      (getInitialNotes crossedQuery).getD 0 "" ∧
    (decodeSlots crossedQuery).length =
      (decodeSlots (fun k => if k = "url2" then some "u" else none)).length := by
  constructor
  · exact (decode_note_alignment crossedQuery crossedQuery).2.1 0 (by decide)
  · exact (decode_note_alignment crossedQuery
      (fun k => if k = "url2" then some "u" else none)).2.2
      (by decide) (by decide) (by decide)

/-- `Object.prototype.hasOwnProperty.call(m, k)`. -/
def hasKey (m : List (String × String)) (k : String) : Bool :=
  m.any (fun p => p.1 == k)

/-- `paramsEqual` (App.tsx lines 39-44): compare key counts, then check
every key of `a` maps to the same value in `b`. -/
def paramsEqual (a b : List (String × String)) : Bool :=
  if (a.map Prod.fst).length ≠ (b.map Prod.fst).length then false
  else (a.map Prod.fst).all (fun k => qget b k == qget a k)

/-- `allSame` (App.tsx lines 181-185): more than one parsed map, and every
map equals the first one. -/
def allSame (allParams : List (List (String × String))) : Bool :=
  decide (allParams.length > 1) &&
    allParams.all (fun p => paramsEqual p (allParams.getD 0 []))

/-- `Set.add`: append the element unless it is already present. -/
def setAdd (s : List String) (k : String) : List String :=
  if s.contains k then s else s ++ [k]

/-- The union of all keys across the maps (App.tsx lines 195-198). -/
def unionKeys (allParams : List (List (String × String))) : List String :=
  allParams.foldl (fun acc m => (m.map Prod.fst).foldl setAdd acc) []

/-- `hasValueDiff` (App.tsx lines 214-216): at least two values and not
all of them equal to the first. -/
def hasValueDiff (values : List (Option String)) : Bool :=
  decide (values.length > 1) &&
    !(values.all (fun v => v == values.getD 0 none))

/-- One step of the `allKeys.forEach` classification loop
(App.tsx lines 203-222). -/
def classifyKey (allParams : List (List (String × String)))
    (acc : List String × List String) (key : String) :
    List String × List String :=
  if allParams.all (fun m => hasKey m key) then
    if hasValueDiff (allParams.map (fun m => qget m key)) then
      (acc.1, setAdd acc.2 key)
    else acc
  else (setAdd acc.1 key, acc.2)

/-- `getDifferentParamKeys` (App.tsx lines 188-225): empty sets when fewer
than two maps or all maps identical; otherwise classify every key of the
union as missing-from-some or value-changed. -/
def getDifferentParamKeys (allParams : List (List (String × String))) :
    List String × List String :=
  if !(decide (allParams.length > 1)) || allSame allParams then ([], [])
  else (unionKeys allParams).foldl (classifyKey allParams) ([], [])

theorem setAdd_mem (s : List String) (k a : String) :
    a ∈ setAdd s k ↔ a ∈ s ∨ a = k := by
  by_cases h : s.contains k
  · have hk : k ∈ s := by simpa using h
    simp only [setAdd, h, if_pos]
    constructor
    · exact Or.inl
    · rintro (h' | rfl)
      · exact h'
      · exact hk
  · have hk : ¬ k ∈ s := by simpa using h
    simp [setAdd, hk]

theorem hasKey_iff (m : List (String × String)) (k : String) :
    hasKey m k = true ↔ k ∈ m.map Prod.fst := by
  simp [hasKey, List.any_eq_true]

theorem qget_isSome_iff (m : List (String × String)) (k : String) :
    (qget m k).isSome = true ↔ k ∈ m.map Prod.fst := by
  constructor
  · intro h
    have h2 : (m.find? (fun p => p.1 == k)).isSome = true := by
      rw [qget] at h
      cases hf : m.find? (fun p => p.1 == k) <;> simp [hf] at h ⊢
    obtain ⟨p, hp⟩ := Option.isSome_iff_exists.mp h2
    have hmem := List.mem_of_find?_eq_some hp
    have hpk := List.find?_some hp
    have hk : p.1 = k := by simpa using hpk
    exact hk ▸ List.mem_map_of_mem Prod.fst hmem
  · intro h
    obtain ⟨p, hpm, hpk⟩ := List.mem_map.mp h
    rw [qget]
    cases hf : m.find? (fun q => q.1 == k) with
    | none =>
      have := List.find?_eq_none.mp hf p hpm
      simp [hpk] at this
    | some q => simp

theorem qget_eq_none_iff (m : List (String × String)) (k : String) :
    qget m k = none ↔ ¬ k ∈ m.map Prod.fst := by
  rw [← qget_isSome_iff]
  cases qget m k <;> simp

theorem paramsEqual_iff (a b : List (String × String))
    (ha : (a.map Prod.fst).Nodup) (hb : (b.map Prod.fst).Nodup) :
    paramsEqual a b = true ↔ ∀ k, qget a k = qget b k := by
  constructor
  · intro h k
    rw [paramsEqual] at h
    by_cases hlen : (a.map Prod.fst).length = (b.map Prod.fst).length
    case neg =>
      rw [if_pos (by simpa using hlen)] at h
      exact absurd h (by simp)
    rw [if_neg (by simpa using hlen)] at h
    have hall : ∀ k' ∈ a.map Prod.fst, qget b k' = qget a k' := by
      intro k' hk'
      have := List.all_eq_true.mp h k' hk'
      simpa using this
    by_cases hk : k ∈ a.map Prod.fst
    · exact (hall k hk).symm
    · have hsub : ∀ x ∈ a.map Prod.fst, x ∈ b.map Prod.fst := by
        intro x hx
        have hx2 : (qget a x).isSome = true := (qget_isSome_iff a x).mpr hx
        have hbx : (qget b x).isSome = true := by rw [hall x hx]; exact hx2
        exact (qget_isSome_iff b x).mp hbx
      have hcard : (b.map Prod.fst).toFinset.card ≤ (a.map Prod.fst).toFinset.card := by
        rw [List.toFinset_card_of_nodup ha, List.toFinset_card_of_nodup hb, hlen]
      have hfs : (a.map Prod.fst).toFinset ⊆ (b.map Prod.fst).toFinset := by
        intro x hx
        simp only [List.mem_toFinset] at hx ⊢
        exact hsub x hx
      have heq := Finset.eq_of_subset_of_card_le hfs hcard
      have hkb : ¬ k ∈ b.map Prod.fst := by
        intro hkb
        apply hk
        have hx : k ∈ (b.map Prod.fst).toFinset := List.mem_toFinset.mpr hkb
        rw [← heq] at hx
        exact List.mem_toFinset.mp hx
      rw [(qget_eq_none_iff a k).mpr hk, (qget_eq_none_iff b k).mpr hkb]
  · intro h
    rw [paramsEqual]
    have hsets : (a.map Prod.fst).toFinset = (b.map Prod.fst).toFinset := by
      ext x
      simp only [List.mem_toFinset, ← qget_isSome_iff, h x]
    have hlen : (a.map Prod.fst).length = (b.map Prod.fst).length := by
      rw [← List.toFinset_card_of_nodup ha, ← List.toFinset_card_of_nodup hb, hsets]
    rw [if_neg (by simpa using hlen)]
    rw [List.all_eq_true]
    intro k _
    simp [h k]

theorem getD_zero_mem {α : Type} (l : List α) (d : α) (h : 0 < l.length) :
    l.getD 0 d ∈ l := by
  cases l with
  | nil => simp at h
  | cons x t => simp

theorem allSame_qget (maps : List (List (String × String)))
    (h2 : 2 ≤ maps.length)
    (hnd : ∀ m ∈ maps, (m.map Prod.fst).Nodup) :
    allSame maps = true ↔
      ∀ m ∈ maps, ∀ k, qget m k = qget (maps.getD 0 []) k := by
  have h0 : maps.getD 0 [] ∈ maps := getD_zero_mem maps [] (by omega)
  rw [allSame, Bool.and_eq_true, List.all_eq_true]
  constructor
  · intro h m hm
    exact (paramsEqual_iff m _ (hnd m hm) (hnd _ h0)).mp (by simpa using h.2 m hm)
  · intro h
    refine ⟨by simp only [decide_eq_true_eq]; omega, ?_⟩
    intro m hm
    simpa using (paramsEqual_iff m _ (hnd m hm) (hnd _ h0)).mpr (h m hm)

/-- C8: for at least two string-to-string maps, the derived `allSame`
boolean holds iff every map has exactly the same key set and every key
carries an identical value in all maps. -/
theorem allSame_iff_identical (maps : List (List (String × String)))
    (h2 : 2 ≤ maps.length)
    (hnd : ∀ m ∈ maps, (m.map Prod.fst).Nodup) :
    allSame maps = true ↔
      ∀ m ∈ maps, ∀ m' ∈ maps,
        (∀ k, k ∈ m.map Prod.fst ↔ k ∈ m'.map Prod.fst) ∧
        (∀ k, qget m k = qget m' k) := by
  have h0 : maps.getD 0 [] ∈ maps := getD_zero_mem maps [] (by omega)
  rw [allSame_qget maps h2 hnd]
  constructor
  · intro h m hm m' hm'
    have hv : ∀ k, qget m k = qget m' k :=
      fun k => (h m hm k).trans (h m' hm' k).symm
    refine ⟨fun k => ?_, hv⟩
    rw [← qget_isSome_iff, ← qget_isSome_iff, hv k]
  · intro h m hm k
    exact (h m hm (maps.getD 0 []) h0).2 k

/-- Witness for C8 at two concrete identical maps. -/
theorem allSame_iff_identical_witness :
    allSame [[("a", "1")], [("a", "1")]] = true ↔
      ∀ m ∈ [[("a", "1")], [("a", "1")]], ∀ m' ∈ [[("a", "1")], [("a", "1")]],
        (∀ k, k ∈ m.map Prod.fst ↔ k ∈ m'.map Prod.fst) ∧
        (∀ k, qget m k = qget m' k) :=
  allSame_iff_identical [[("a", "1")], [("a", "1")]] (by decide) (by decide)

theorem foldl_setAdd_mem (l : List String) (acc : List String) (k : String) :
    k ∈ l.foldl setAdd acc ↔ k ∈ acc ∨ k ∈ l := by
  induction l generalizing acc with
  | nil => simp
  | cons x xs ih =>
    simp only [List.foldl_cons]
    rw [ih, setAdd_mem]
    simp only [List.mem_cons]
    tauto

theorem unionKeys_mem (ps : List (List (String × String))) (k : String) :
    k ∈ unionKeys ps ↔ ∃ m ∈ ps, k ∈ m.map Prod.fst := by
  rw [unionKeys]
  suffices h : ∀ acc, k ∈ ps.foldl
      (fun acc m => (m.map Prod.fst).foldl setAdd acc) acc ↔
      k ∈ acc ∨ ∃ m ∈ ps, k ∈ m.map Prod.fst by
    simpa using h []
  induction ps with
  | nil => simp
  | cons m t ih =>
    intro acc
    simp only [List.foldl_cons]
    rw [ih, foldl_setAdd_mem]
    simp only [List.mem_cons]
    constructor
    · rintro ((h | h) | ⟨m', hm', hk⟩)
      · exact Or.inl h
      · exact Or.inr ⟨m, Or.inl rfl, h⟩
      · exact Or.inr ⟨m', Or.inr hm', hk⟩
    · rintro (h | ⟨m', (rfl | hm'), hk⟩)
      · exact Or.inl (Or.inl h)
      · exact Or.inl (Or.inr hk)
      · exact Or.inr ⟨m', hm', hk⟩

theorem classifyKey_fst_mem (ps : List (List (String × String)))
    (acc : List String × List String) (key k : String) :
    k ∈ (classifyKey ps acc key).1 ↔
      k ∈ acc.1 ∨ (k = key ∧ ¬ ps.all (fun m => hasKey m key) = true) := by
  rw [classifyKey]
  by_cases h : ps.all (fun m => hasKey m key) = true
  · by_cases hv : hasValueDiff (ps.map (fun m => qget m key)) = true <;>
      simp [h, hv]
  · simp [h, setAdd_mem]

theorem classifyKey_snd_mem (ps : List (List (String × String)))
    (acc : List String × List String) (key k : String) :
    k ∈ (classifyKey ps acc key).2 ↔
      k ∈ acc.2 ∨ (k = key ∧ ps.all (fun m => hasKey m key) = true ∧
        hasValueDiff (ps.map (fun m => qget m key)) = true) := by
  rw [classifyKey]
  by_cases h : ps.all (fun m => hasKey m key) = true
  · by_cases hv : hasValueDiff (ps.map (fun m => qget m key)) = true <;>
      simp [h, hv, setAdd_mem]
  · simp [h]

theorem or_and_shift (A B C D : Prop) :
    ((A ∨ (B ∧ C)) ∨ (D ∧ C)) ↔ (A ∨ ((B ∨ D) ∧ C)) := by
  tauto

theorem classify_foldl_mem (ps : List (List (String × String)))
    (ks : List String) (acc : List String × List String) (k : String) :
    (k ∈ (ks.foldl (classifyKey ps) acc).1 ↔
      k ∈ acc.1 ∨ (k ∈ ks ∧ ¬ ps.all (fun m => hasKey m k) = true)) ∧
    (k ∈ (ks.foldl (classifyKey ps) acc).2 ↔
      k ∈ acc.2 ∨ (k ∈ ks ∧ ps.all (fun m => hasKey m k) = true ∧
        hasValueDiff (ps.map (fun m => qget m k)) = true)) := by
  induction ks generalizing acc with
  | nil => simp
  | cons key t ih =>
    simp only [List.foldl_cons]
    rcases ih (classifyKey ps acc key) with ⟨ih1, ih2⟩
    rw [ih1, ih2, classifyKey_fst_mem, classifyKey_snd_mem]
    have hcongr1 : (k = key ∧ ¬ ps.all (fun m => hasKey m key) = true) ↔
        (k = key ∧ ¬ ps.all (fun m => hasKey m k) = true) := by
      constructor <;> rintro ⟨rfl, h⟩ <;> exact ⟨rfl, h⟩
    have hcongr2 : (k = key ∧ ps.all (fun m => hasKey m key) = true ∧
        hasValueDiff (ps.map (fun m => qget m key)) = true) ↔
        (k = key ∧ ps.all (fun m => hasKey m k) = true ∧
          hasValueDiff (ps.map (fun m => qget m k)) = true) := by
      constructor <;> rintro ⟨rfl, h⟩ <;> exact ⟨rfl, h⟩
    rw [hcongr1, hcongr2]
    simp only [List.mem_cons]
    exact ⟨or_and_shift _ _ _ _, or_and_shift _ _ _ _⟩

theorem hasValueDiff_iff (m0 : List (String × String))
    (t : List (List (String × String))) (k : String) (h1 : 1 ≤ t.length) :
    hasValueDiff ((m0 :: t).map (fun m => qget m k)) = true ↔
      ∃ m ∈ m0 :: t, ∃ m' ∈ m0 :: t, qget m k ≠ qget m' k := by
  rw [hasValueDiff, Bool.and_eq_true]
  simp only [List.map_cons, List.getD_cons_zero, List.length_cons,
    List.length_map, decide_eq_true_eq, Bool.not_eq_true', List.all_eq_false]
  constructor
  · rintro ⟨-, v, hv, hne⟩
    have hv' : v = qget m0 k ∨ ∃ m ∈ t, qget m k = v := by
      rcases List.mem_cons.mp hv with h | h
      · exact Or.inl h
      · obtain ⟨m, hm, hmk⟩ := List.mem_map.mp h
        exact Or.inr ⟨m, hm, hmk⟩
    rcases hv' with rfl | ⟨m, hm, rfl⟩
    · exact absurd (beq_self_eq_true (qget m0 k)) hne
    · refine ⟨m, List.mem_cons_of_mem m0 hm, m0, List.mem_cons_self m0 t, ?_⟩
      simpa using hne
  · rintro ⟨m, hm, m', hm', hne⟩
    refine ⟨by omega, ?_⟩
    by_cases hmk : qget m k = qget m0 k
    · refine ⟨qget m' k, ?_, ?_⟩
      · rcases List.mem_cons.mp hm' with h | h
        · exact h ▸ List.mem_cons_self _ _
        · exact List.mem_cons_of_mem _ (List.mem_map_of_mem _ h)
      · intro hb
        have heq : qget m' k = qget m0 k := by simpa using hb
        exact hne (hmk.trans heq.symm)
    · refine ⟨qget m k, ?_, by simpa using hmk⟩
      rcases List.mem_cons.mp hm with h | h
      · exact h ▸ List.mem_cons_self _ _
      · exact List.mem_cons_of_mem _ (List.mem_map_of_mem _ h)

/-- C7: for at least two maps, the comparator classifies each key of the
union of all keys: a key absent from at least one map lands in `missing`;
a key present in every map whose values are not all identical lands in
`valueChanged`; a key present everywhere with identical values lands in
neither set. -/
theorem compare_classifies_keys (maps : List (List (String × String)))
    (h2 : 2 ≤ maps.length)
    (hnd : ∀ m ∈ maps, (m.map Prod.fst).Nodup) (k : String) :
    (k ∈ (getDifferentParamKeys maps).1 ↔
      (∃ m ∈ maps, k ∈ m.map Prod.fst) ∧
        (∃ m ∈ maps, ¬ k ∈ m.map Prod.fst)) ∧
    (k ∈ (getDifferentParamKeys maps).2 ↔
      (∀ m ∈ maps, k ∈ m.map Prod.fst) ∧
        ∃ m ∈ maps, ∃ m' ∈ maps, qget m k ≠ qget m' k) ∧
    (((∀ m ∈ maps, k ∈ m.map Prod.fst) ∧
        (∀ m ∈ maps, ∀ m' ∈ maps, qget m k = qget m' k)) →
      ¬ k ∈ (getDifferentParamKeys maps).1 ∧
        ¬ k ∈ (getDifferentParamKeys maps).2) := by
  have hiff : (k ∈ (getDifferentParamKeys maps).1 ↔
      (∃ m ∈ maps, k ∈ m.map Prod.fst) ∧
        (∃ m ∈ maps, ¬ k ∈ m.map Prod.fst)) ∧
      (k ∈ (getDifferentParamKeys maps).2 ↔
      (∀ m ∈ maps, k ∈ m.map Prod.fst) ∧
        ∃ m ∈ maps, ∃ m' ∈ maps, qget m k ≠ qget m' k) := by
    by_cases hAS : allSame maps = true
    · have hempty : getDifferentParamKeys maps = ([], []) := by
        rw [getDifferentParamKeys]
        simp [hAS]
      rw [hempty]
      have hq := (allSame_qget maps h2 hnd).mp hAS
      constructor
      · simp only [List.not_mem_nil, false_iff]
        rintro ⟨⟨m1, hm1, hk1⟩, ⟨m2, hm2, hk2⟩⟩
        apply hk2
        rw [← qget_isSome_iff] at hk1 ⊢
        rw [hq m2 hm2 k, ← hq m1 hm1 k]
        exact hk1
      · simp only [List.not_mem_nil, false_iff]
        rintro ⟨-, m, hm, m', hm', hne⟩
        exact hne ((hq m hm k).trans (hq m' hm' k).symm)
    · have hfold : getDifferentParamKeys maps =
          (unionKeys maps).foldl (classifyKey maps) ([], []) := by
        rw [getDifferentParamKeys]
        have hd : decide (maps.length > 1) = true := by
          simp only [decide_eq_true_eq]
          omega
        have hAS' : allSame maps = false := by
          cases hv : allSame maps
          · rfl
          · exact absurd hv hAS
        simp [hd, hAS']
      rw [hfold]
      rcases classify_foldl_mem maps (unionKeys maps) ([], []) k with ⟨hm1, hm2⟩
      rw [hm1, hm2]
      cases maps with
      | nil => simp at h2
      | cons m0 t =>
        have ht : 1 ≤ t.length := by
          simp only [List.length_cons] at h2
          omega
        constructor
        · rw [unionKeys_mem]
          simp only [List.not_mem_nil, false_or]
          constructor
          · rintro ⟨hu, hna⟩
            refine ⟨hu, ?_⟩
            rw [List.all_eq_true] at hna
            push_neg at hna
            obtain ⟨m, hm, hk⟩ := hna
            exact ⟨m, hm, fun hmem => hk ((hasKey_iff m k).mpr hmem)⟩
          · rintro ⟨hu, m, hm, hk⟩
            refine ⟨hu, ?_⟩
            rw [List.all_eq_true]
            push_neg
            exact ⟨m, hm, fun hkt => hk ((hasKey_iff m k).mp hkt)⟩
        · rw [unionKeys_mem]
          simp only [List.not_mem_nil, false_or]
          rw [hasValueDiff_iff m0 t k ht]
          constructor
          · rintro ⟨hu, hall, hdiff⟩
            rw [List.all_eq_true] at hall
            exact ⟨fun m hm => (hasKey_iff m k).mp (hall m hm), hdiff⟩
          · rintro ⟨hall, hdiff⟩
            refine ⟨⟨m0, List.mem_cons_self m0 t,
              hall m0 (List.mem_cons_self m0 t)⟩, ?_, hdiff⟩
            rw [List.all_eq_true]
            exact fun m hm => (hasKey_iff m k).mpr (hall m hm)
  refine ⟨hiff.1, hiff.2, ?_⟩
  rintro ⟨hall, heq⟩
  constructor
  · intro hmem
    obtain ⟨-, m, hm, hk⟩ := hiff.1.mp hmem
    exact hk (hall m hm)
  · intro hmem
    obtain ⟨-, m, hm, m', hm', hne⟩ := hiff.2.mp hmem
    exact hne (heq m hm m' hm')

/-- Witness for C7 at the spec's example pair of maps and key `b`. -/
theorem compare_classifies_keys_witness :
    ("b" ∈ (getDifferentParamKeys [[("a", "1"), ("b", "2")], [("a", "1")]]).1 ↔
      (∃ m ∈ [[("a", "1"), ("b", "2")], [("a", "1")]], "b" ∈ m.map Prod.fst) ∧
        (∃ m ∈ [[("a", "1"), ("b", "2")], [("a", "1")]],
          ¬ "b" ∈ m.map Prod.fst)) ∧
    ("b" ∈ (getDifferentParamKeys [[("a", "1"), ("b", "2")], [("a", "1")]]).2 ↔
      (∀ m ∈ [[("a", "1"), ("b", "2")], [("a", "1")]], "b" ∈ m.map Prod.fst) ∧
        ∃ m ∈ [[("a", "1"), ("b", "2")], [("a", "1")]],
          ∃ m' ∈ [[("a", "1"), ("b", "2")], [("a", "1")]],
            qget m "b" ≠ qget m' "b") ∧
    (((∀ m ∈ [[("a", "1"), ("b", "2")], [("a", "1")]], "b" ∈ m.map Prod.fst) ∧
        (∀ m ∈ [[("a", "1"), ("b", "2")], [("a", "1")]],
          ∀ m' ∈ [[("a", "1"), ("b", "2")], [("a", "1")]],
            qget m "b" = qget m' "b")) →
      ¬ "b" ∈ (getDifferentParamKeys [[("a", "1"), ("b", "2")], [("a", "1")]]).1 ∧
        ¬ "b" ∈ (getDifferentParamKeys [[("a", "1"), ("b", "2")], [("a", "1")]]).2) :=
  compare_classifies_keys [[("a", "1"), ("b", "2")], [("a", "1")]]
    (by decide) (by decide) "b"

/-- C10: the two sets returned by the comparator are disjoint — no key is
both missing-from-some-map and value-changed. -/
theorem missing_valueChanged_disjoint (maps : List (List (String × String)))
    (k : String) :
    ¬ (k ∈ (getDifferentParamKeys maps).1 ∧
        k ∈ (getDifferentParamKeys maps).2) := by
  rintro ⟨h1, h2⟩
  rw [getDifferentParamKeys] at h1 h2
  by_cases hc : (!decide (maps.length > 1) || allSame maps) = true
  · rw [if_pos hc] at h1
    simp at h1
  · rw [if_neg hc] at h1 h2
    have hf := classify_foldl_mem maps (unionKeys maps) ([], []) k
    rw [hf.1] at h1
    rw [hf.2] at h2
    rcases h1 with h1 | ⟨-, hna⟩
    · simp at h1
    rcases h2 with h2 | ⟨-, hall, -⟩
    · simp at h2
    exact hna hall

/-- Valid scheme characters after the first (WHATWG): ASCII alphanumeric,
`+`, `-` or `.`. -/
def isSchemeChar (c : Char) : Bool :=
  c.isAlphanum || c == '+' || c == '-' || c == '.'

/-- A scheme is a leading ASCII letter followed by scheme characters. -/
def validScheme (l : List Char) : Bool :=
  match l with
  | [] => false
  | c :: cs => c.isAlpha && cs.all isSchemeChar

/-- Split a character list on a separator character; mirrors
`String.splitOn` for a single-character separator. -/
def splitOnChar (c : Char) : List Char → List (List Char)
  | [] => [[]]
  | x :: xs =>
    if x == c then [] :: splitOnChar c xs
    else
      match splitOnChar c xs with
      | [] => [[x]]
      | seg :: rest => (x :: seg) :: rest

/-- One `key=value` segment, split at the first `=`; a segment without
`=` maps to the empty value. -/
def splitEntry (seg : List Char) : String × String :=
  let kpart := seg.takeWhile (fun ch => ch != '=')
  ⟨kpart.asString, ((seg.drop kpart.length).drop 1).asString⟩

/-- Modelled from the spec: `URLSearchParams` iteration over a raw query
string — split on `&`, drop empty segments, split each segment at the
first `=`. Percent decoding is not modelled (the spec mandates no
normalization beyond the underlying parser and no claim depends on
encoded octets). -/
def parseQueryEntries (q : List Char) : List (String × String) :=
  (splitOnChar '&' q).filterMap (fun seg =>
    if seg.isEmpty then none else some (splitEntry seg))

/-- The structured result of the external URL-parsing primitive:
`protocol` keeps the trailing colon (as `URL.protocol` does),
`searchEntries` lists the query pairs in declaration order. -/
structure RawURL where
  protocol : String
  host : String
  pathname : String
  searchEntries : List (String × String)
deriving DecidableEq

/-- Modelled from the spec: the external standards-compliant absolute-URL
parsing primitive (`new URL(...)`), which the repository consumes but does
not implement. It requires a scheme terminated by `:`; with a `//`
authority the host runs to the next `/` or `?` and an empty path reads as
`/`; without `//` the remainder up to `?` is an opaque path. The fragment
is dropped, the query follows the first `?`. `none` models the
constructor throwing on malformed input (missing or invalid scheme, empty
authority). -/
def urlParse (s : String) : Option RawURL :=
  let l := s.toList
  let scheme := l.takeWhile (fun c => c != ':')
  match l.drop scheme.length with
  | [] => none
  | _ :: afterColon =>
    if validScheme scheme then
      let noFrag := afterColon.takeWhile (fun c => c != '#')
      match noFrag with
      | '/' :: '/' :: afterSlashes =>
        let auth := afterSlashes.takeWhile (fun c => c != '/' && c != '?')
        if auth.isEmpty then none
        else
          let rest2 := afterSlashes.drop auth.length
          let path := rest2.takeWhile (fun c => c != '?')
          let query := (rest2.drop path.length).drop 1
          some { protocol := scheme.asString ++ ":",
                 host := auth.asString,
                 pathname := if path.isEmpty then "/" else path.asString,
                 searchEntries := parseQueryEntries query }
      | _ =>
        let path := noFrag.takeWhile (fun c => c != '?')
        let query := (noFrag.drop path.length).drop 1
        some { protocol := scheme.asString ++ ":",
               host := "",
               pathname := path.asString,
               searchEntries := parseQueryEntries query }
    else none

/-- Lexicographic code-point comparison of character lists; the
executable counterpart of the standard `String` order. -/
def charListLE : List Char → List Char → Bool
  | [], _ => true
  | _ :: _, [] => false
  | a :: as, b :: bs =>
    if a.toNat < b.toNat then true
    else if b.toNat < a.toNat then false
    else charListLE as bs

theorem charListLE_iff_not_lt :
    ∀ (a b : List Char), charListLE a b = true ↔ ¬ List.lt b a
  | [], b => by
    constructor
    · intro _ h
      cases h
    · intro _
      rfl
  | x :: xs, [] => by
    constructor
    · intro h
      exact absurd h (by simp [charListLE])
    · intro h
      exact absurd (List.lt.nil x xs) h
  | x :: xs, y :: ys => by
    rw [charListLE]
    by_cases h1 : x.toNat < y.toNat
    · rw [if_pos h1]
      constructor
      · intro _ hlt
        cases hlt with
        | head _ _ hyx => exact absurd h1 (Nat.lt_asymm hyx)
        | tail hyx hxy _ => exact hxy h1
      · intro _
        rfl
    · rw [if_neg h1]
      by_cases h2 : y.toNat < x.toNat
      · rw [if_pos h2]
        constructor
        · intro hf
          exact absurd hf (by simp)
        · intro hn
          exact absurd (List.lt.head ys xs h2) hn
      · rw [if_neg h2]
        rw [charListLE_iff_not_lt xs ys]
        constructor
        · intro hn hlt
          cases hlt with
          | head _ _ hyx => exact h2 hyx
          | tail _ _ hrest => exact hn hrest
        · intro hn hlt
          exact hn (List.lt.tail h2 h1 hlt)

/-- Executable form of the `String` order: `strLE a b` decides `a ≤ b`. -/
def strLE (a b : String) : Bool :=
  charListLE a.toList b.toList

theorem strLE_iff_le (a b : String) : strLE a b = true ↔ a ≤ b := by
  rw [strLE, charListLE_iff_not_lt]
  constructor
  · intro h
    rw [← not_lt]
    intro hlt
    rw [String.lt_iff_toList_lt] at hlt
    apply h
    rw [List.lt_iff_lex_lt]
    exact hlt
  · intro h hlt
    rw [List.lt_iff_lex_lt] at hlt
    have hlt' : b < a := String.lt_iff_toList_lt.mpr hlt
    exact absurd h (not_le.mpr hlt')

/-- The comparator of App.tsx line 26, `([a], [b]) => a.localeCompare(b)`,
embedded as lexicographic code-point order on the entry keys. -/
def keyLE (a b : String × String) : Bool :=
  strLE a.1 b.1

theorem keyLE_iff (a b : String × String) :
    keyLE a b = true ↔ a.1 ≤ b.1 :=
  strLE_iff_le a.1 b.1

/-- JS object assignment `params[k] = v`: overwrite in place when the key
exists (keeping its position), append otherwise. -/
def recordSet (m : List (String × String)) (kv : String × String) :
    List (String × String) :=
  if m.any (fun p => p.1 == kv.1) then
    m.map (fun p => if p.1 == kv.1 then kv else p)
  else m ++ [kv]

/-- Insert an entry into a sorted list, in front of the first element it
compares less-or-equal to; ties keep the inserted (earlier) element
first, which is exactly the stable-sort discipline. -/
def insertByKey (kv : String × String) :
    List (String × String) → List (String × String)
  | [] => [kv]
  | x :: xs => if keyLE kv x then kv :: x :: xs else x :: insertByKey kv xs

/-- Stable sort of the entries by key. JS `Array.prototype.sort` is
stable, and a stable sort under a total comparator has a unique result,
so this insertion sort embeds the source's `.sort(([a],[b]) =>
a.localeCompare(b))` faithfully. -/
def sortByKey (l : List (String × String)) : List (String × String) :=
  l.foldr insertByKey []

/-- App.tsx lines 24-27: sort the query entries by key and assign each
into a fresh object, later assignments overwriting earlier ones. -/
def buildParams (entries : List (String × String)) : List (String × String) :=
  (sortByKey entries).foldl recordSet []

/-- The state of the optional analytics sink around a parse call: absent
(`analytics` is null), present and logging normally, or present with
`logEvent` throwing. -/
inductive Sink
  | absent
  | ok
  | failing
deriving DecidableEq

/-- The `if (analytics) logEvent(...)` prelude of `parseUrl`
(App.tsx 18-22): `none` models a thrown exception. -/
def logEventAttempt : Sink → Option Unit
  | Sink.absent => some ()
  | Sink.ok => some ()
  | Sink.failing => none

/-- The structured parse result (App.tsx 9-14). -/
structure ParsedURL where
  protocol : String
  host : String
  path : String
  params : List (String × String)
deriving DecidableEq

/-- JS `protocol.replace(":", "")`: remove the first occurrence of the
colon (the protocol string holds exactly one, at its end). -/
def removeFirstColon (s : String) : String :=
  ((s.toList.takeWhile (fun c => c != ':')) ++
    (s.toList.dropWhile (fun c => c != ':')).drop 1).asString

/-- `parseUrl` (App.tsx 16-37): everything — including the telemetry
call — runs inside one try/catch whose handler returns null. -/
def parseUrl (sink : Sink) (url : String) : Option ParsedURL :=
  match logEventAttempt sink with
  | none => none
  | some _ =>
    match urlParse url with
    | none => none
    | some u =>
      some { protocol := removeFirstColon u.protocol,
             host := u.host,
             path := u.pathname,
             params := buildParams u.searchEntries }

/-- The last value declared for key `k` in an entry list — the value that
standard query-string semantics retain for a repeated key. -/
def lastVal (entries : List (String × String)) (k : String) : Option String :=
  ((entries.filter (fun p => p.1 == k)).map Prod.snd).getLast?

theorem qget_map_overwrite (t : List (String × String)) (kv : String × String)
    (k : String) (hne : ¬ kv.1 = k) :
    qget (t.map (fun p => if p.1 == kv.1 then kv else p)) k = qget t k := by
  induction t with
  | nil => rfl
  | cons q t ih =>
    by_cases hq : (q.1 == kv.1) = true
    · have hq1 : q.1 = kv.1 := by simpa using hq
      have hkv : (kv.1 == k) = false := by simpa using hne
      have hqk : (q.1 == k) = false := by
        rw [hq1]
        exact hkv
      simp only [List.map_cons, hq, if_true]
      rw [qget_cons, qget_cons, hkv, hqk]
      simp only [Bool.false_eq_true, if_false]
      exact ih
    · have hq' : (q.1 == kv.1) = false := by simpa using hq
      simp only [List.map_cons, hq', Bool.false_eq_true, if_false]
      rcases q with ⟨q1, q2⟩
      rw [qget_cons, qget_cons]
      by_cases hqk : (q1 == k) = true
      · rw [if_pos hqk, if_pos hqk]
      · rw [if_neg hqk, if_neg hqk]
        exact ih

theorem qget_map_overwrite_hit (t : List (String × String))
    (kv : String × String) (hany : t.any (fun q => q.1 == kv.1) = true) :
    qget (t.map (fun p => if p.1 == kv.1 then kv else p)) kv.1 = some kv.2 := by
  induction t with
  | nil => simp at hany
  | cons q t ih =>
    by_cases hq : (q.1 == kv.1) = true
    · simp only [List.map_cons, hq, if_true]
      rcases kv with ⟨k1, v1⟩
      rw [qget_cons]
      simp
    · have hq' : (q.1 == kv.1) = false := by simpa using hq
      simp only [List.map_cons, hq', Bool.false_eq_true, if_false]
      rcases q with ⟨q1, q2⟩
      rw [qget_cons]
      have hq1 : (q1 == kv.1) = false := hq'
      rw [hq1]
      simp only [Bool.false_eq_true, if_false]
      apply ih
      simp only [List.any_cons, hq1, Bool.false_or] at hany
      exact hany

theorem qget_recordSet (m : List (String × String)) (kv : String × String)
    (k : String) :
    qget (recordSet m kv) k = if kv.1 = k then some kv.2 else qget m k := by
  rw [recordSet]
  by_cases hany : (m.any (fun p => p.1 == kv.1)) = true
  · rw [if_pos hany]
    by_cases hk : kv.1 = k
    · subst hk
      rw [if_pos rfl]
      exact qget_map_overwrite_hit m kv hany
    · rw [if_neg hk]
      exact qget_map_overwrite m kv k hk
  · rw [if_neg hany]
    have hfind : m.find? (fun q => q.1 == kv.1) = none := by
      rw [List.find?_eq_none]
      intro q hq hqq
      exact hany (List.any_eq_true.mpr ⟨q, hq, hqq⟩)
    by_cases hk : kv.1 = k
    · subst hk
      rw [if_pos rfl, qget, List.find?_append, hfind]
      rcases kv with ⟨k1, v1⟩
      simp [List.find?_cons]
    · rw [if_neg hk, qget, qget, List.find?_append]
      have hone : List.find? (fun q => q.1 == k) [kv] = none := by
        have : (kv.1 == k) = false := by simpa using hk
        simp [List.find?_cons, this]
      rw [hone]
      cases List.find? (fun q => q.1 == k) m <;> simp

theorem getLast?_cons_of_ne_nil {α : Type} (x : α) (l : List α) (h : l ≠ []) :
    (x :: l).getLast? = l.getLast? := by
  cases l with
  | nil => exact absurd rfl h
  | cons y t => rw [List.getLast?_cons_cons]

theorem lastVal_cons (kv : String × String) (t : List (String × String))
    (k : String) :
    lastVal (kv :: t) k =
      if (kv.1 == k) = true then
        match lastVal t k with
        | some v => some v
        | none => some kv.2
      else lastVal t k := by
  rw [lastVal, lastVal, List.filter_cons]
  by_cases hk : (kv.1 == k) = true
  · rw [if_pos hk, if_pos hk, List.map_cons]
    cases hgl : ((t.filter (fun p => p.1 == k)).map Prod.snd).getLast? with
    | none =>
      have hnil : (t.filter (fun p => p.1 == k)).map Prod.snd = [] :=
        List.getLast?_eq_none_iff.mp hgl
      rw [hnil]
      rfl
    | some v =>
      rw [getLast?_cons_of_ne_nil _ _ ?ne]
      case ne =>
        intro hcon
        rw [hcon] at hgl
        exact absurd hgl (by simp)
      exact hgl
  · rw [if_neg hk, if_neg hk]

theorem qget_foldl_recordSet (l : List (String × String))
    (m : List (String × String)) (k : String) :
    qget (l.foldl recordSet m) k =
      match lastVal l k with
      | some v => some v
      | none => qget m k := by
  induction l generalizing m with
  | nil => simp [lastVal]
  | cons kv t ih =>
    rw [List.foldl_cons, ih, lastVal_cons, qget_recordSet]
    by_cases hk : (kv.1 == k) = true
    · have hk' : kv.1 = k := by simpa using hk
      rw [if_pos hk, if_pos hk']
      cases lastVal t k <;> rfl
    · have hk' : ¬ kv.1 = k := by simpa using hk
      rw [if_neg hk, if_neg hk']

theorem keyLE_trans (a b c : String × String) :
    keyLE a b → keyLE b c → keyLE a c := by
  simp only [keyLE_iff]
  exact le_trans

theorem keyLE_total (a b : String × String) : keyLE a b || keyLE b a := by
  simp only [Bool.or_eq_true, keyLE_iff]
  exact le_total a.1 b.1

theorem keyLE_of_not (a b : String × String) (h : ¬ keyLE a b = true) :
    keyLE b a = true := by
  have htot := keyLE_total a b
  rw [Bool.or_eq_true] at htot
  rcases htot with h1 | h2
  · exact absurd h1 h
  · exact h2

theorem mem_insertByKey (kv a : String × String)
    (l : List (String × String)) :
    a ∈ insertByKey kv l ↔ a = kv ∨ a ∈ l := by
  induction l with
  | nil => simp [insertByKey]
  | cons x xs ih =>
    rw [insertByKey]
    by_cases h : keyLE kv x = true
    · rw [if_pos h]
      simp only [List.mem_cons]
    · rw [if_neg h]
      simp only [List.mem_cons, ih]
      tauto

theorem pairwise_insertByKey (kv : String × String)
    (l : List (String × String))
    (hl : l.Pairwise (fun a b => keyLE a b)) :
    (insertByKey kv l).Pairwise (fun a b => keyLE a b) := by
  induction l with
  | nil => simp [insertByKey]
  | cons x xs ih =>
    rcases List.pairwise_cons.mp hl with ⟨hx, hxs⟩
    rw [insertByKey]
    by_cases h : keyLE kv x = true
    · rw [if_pos h]
      apply List.pairwise_cons.mpr
      refine ⟨?_, hl⟩
      intro b hb
      rcases List.mem_cons.mp hb with rfl | hb'
      · exact h
      · exact keyLE_trans kv x b h (hx b hb')
    · rw [if_neg h]
      apply List.pairwise_cons.mpr
      refine ⟨?_, ih hxs⟩
      intro b hb
      rcases (mem_insertByKey kv b xs).mp hb with rfl | hb'
      · exact keyLE_of_not b x h
      · exact hx b hb'

theorem pairwise_sortByKey (l : List (String × String)) :
    (sortByKey l).Pairwise (fun a b => keyLE a b) := by
  induction l with
  | nil => simp [sortByKey]
  | cons a t ih =>
    rw [sortByKey, List.foldr_cons]
    exact pairwise_insertByKey a _ ih

theorem filter_insertByKey_pos (kv : String × String)
    (l : List (String × String)) (k : String) (hk : kv.1 = k) :
    (insertByKey kv l).filter (fun p => p.1 == k) =
      kv :: l.filter (fun p => p.1 == k) := by
  induction l with
  | nil => simp [insertByKey, hk]
  | cons x xs ih =>
    rw [insertByKey]
    by_cases h : keyLE kv x = true
    · rw [if_pos h]
      simp [List.filter_cons, hk]
    · rw [if_neg h]
      have hlt : x.1 < kv.1 := by
        have h' : ¬ kv.1 ≤ x.1 := fun hle => h ((keyLE_iff kv x).mpr hle)
        exact lt_of_not_le h'
      have hxk : ¬ x.1 = k := by
        rw [← hk]
        exact ne_of_lt hlt
      simp [List.filter_cons, hxk, ih]

theorem filter_insertByKey_neg (kv : String × String)
    (l : List (String × String)) (k : String) (hk : ¬ kv.1 = k) :
    (insertByKey kv l).filter (fun p => p.1 == k) =
      l.filter (fun p => p.1 == k) := by
  induction l with
  | nil => simp [insertByKey, hk]
  | cons x xs ih =>
    rw [insertByKey]
    by_cases h : keyLE kv x = true
    · rw [if_pos h]
      simp [List.filter_cons, hk]
    · rw [if_neg h]
      simp [List.filter_cons, ih]

theorem filter_sortByKey (l : List (String × String)) (k : String) :
    (sortByKey l).filter (fun p => p.1 == k) =
      l.filter (fun p => p.1 == k) := by
  induction l with
  | nil => rfl
  | cons a t ih =>
    have hstep : sortByKey (a :: t) = insertByKey a (sortByKey t) := rfl
    rw [hstep]
    by_cases ha : a.1 = k
    · rw [filter_insertByKey_pos a _ k ha]
      simp [List.filter_cons, ha, ih]
    · rw [filter_insertByKey_neg a _ k ha]
      simp [List.filter_cons, ha, ih]

theorem qget_buildParams (entries : List (String × String)) (k : String) :
    qget (buildParams entries) k = lastVal entries k := by
  rw [buildParams, qget_foldl_recordSet]
  have hl : lastVal (sortByKey entries) k = lastVal entries k := by
    rw [lastVal, lastVal, filter_sortByKey]
  rw [hl]
  cases lastVal entries k <;> rfl

theorem sorted_keys_foldl : ∀ (l m : List (String × String)),
    l.Pairwise (fun a b => keyLE a b) →
    (m.map Prod.fst).Sorted (· ≤ ·) →
    (∀ a ∈ m.map Prod.fst, ∀ b ∈ l, a ≤ b.1) →
    ((l.foldl recordSet m).map Prod.fst).Sorted (· ≤ ·)
  | [], m, _, hm, _ => by simpa using hm
  | kv :: t, m, hl, hm, hb => by
    rw [List.foldl_cons]
    rcases List.pairwise_cons.mp hl with ⟨hkv, ht⟩
    by_cases hany : (m.any (fun p => p.1 == kv.1)) = true
    · have hkeys : (recordSet m kv).map Prod.fst = m.map Prod.fst := by
        rw [recordSet, if_pos hany, List.map_map]
        apply List.map_congr_left
        intro p hp
        simp only [Function.comp_apply]
        by_cases hp1 : (p.1 == kv.1) = true
        · rw [if_pos hp1]
          have hpe : p.1 = kv.1 := by simpa using hp1
          exact hpe.symm
        · rw [if_neg hp1]
      apply sorted_keys_foldl t (recordSet m kv) ht
      · rw [hkeys]
        exact hm
      · rw [hkeys]
        intro a ha b hbt
        exact hb a ha b (List.mem_cons_of_mem kv hbt)
    · have hkeys : (recordSet m kv).map Prod.fst = m.map Prod.fst ++ [kv.1] := by
        rw [recordSet, if_neg hany, List.map_append]
        rfl
      apply sorted_keys_foldl t (recordSet m kv) ht
      · rw [hkeys]
        refine List.pairwise_append.mpr ⟨hm, by simp, ?_⟩
        intro a ha b hbmem
        have hbk : b = kv.1 := by simpa using hbmem
        subst hbk
        exact hb a ha kv (List.mem_cons_self kv t)
      · rw [hkeys]
        intro a ha b hbt
        rcases List.mem_append.mp ha with ha' | ha'
        · exact hb a ha' b (List.mem_cons_of_mem kv hbt)
        · have hak : a = kv.1 := by simpa using ha'
          subst hak
          have hle := hkv b hbt
          exact (keyLE_iff kv b).mp hle

theorem buildParams_sorted (entries : List (String × String)) :
    ((buildParams entries).map Prod.fst).Sorted (· ≤ ·) := by
  rw [buildParams]
  apply sorted_keys_foldl
  · exact pairwise_sortByKey entries
  · simp
  · simp

/-- C3: for every string the external URL parser accepts, the params map
built by `parseUrl` retains exactly the last declared value for each key
— repeated keys included — even though the implementation sorts the
entries before building the map (the sort is stable, so the last tied
entry is assigned last and wins). -/
theorem parse_retains_last_value (s : String) (u : RawURL)
    (h : urlParse s = some u) :
    ∃ p, parseUrl Sink.absent s = some p ∧
      ∀ k, qget p.params k = lastVal u.searchEntries k := by
  have hps : parseUrl Sink.absent s =
      some ⟨removeFirstColon u.protocol, u.host, u.pathname,
        buildParams u.searchEntries⟩ := by
    simp [parseUrl, logEventAttempt, h]
  refine ⟨_, hps, ?_⟩
  intro k
  exact qget_buildParams u.searchEntries k

/-- Witness for C3 at a URL whose query repeats the key `a`. -/
theorem parse_retains_last_value_witness :
    ∃ p, parseUrl Sink.absent "https://example.com/?a=1&b=9&a=2" = some p ∧
      ∀ k, qget p.params k =
        lastVal [("a", "1"), ("b", "9"), ("a", "2")] k :=
  parse_retains_last_value "https://example.com/?a=1&b=9&a=2"
    ⟨"https:", "example.com", "/", [("a", "1"), ("b", "9"), ("a", "2")]⟩
    (by decide)

/-- C5: every successful parse yields a params map whose keys are in
ascending lexicographic order, and the spec's end-to-end example
evaluates exactly as stated, keys reordered. -/
theorem parse_params_sorted :
    (∀ s p, parseUrl Sink.absent s = some p →
      (p.params.map Prod.fst).Sorted (· ≤ ·)) ∧
    parseUrl Sink.absent "https://example.com?b=2&a=1" =
      some ⟨"https", "example.com", "/", [("a", "1"), ("b", "2")]⟩ := by
  constructor
  · intro s p hp
    cases hu : urlParse s with
    | none =>
      rw [show parseUrl Sink.absent s = none by
        simp [parseUrl, logEventAttempt, hu]] at hp
      exact absurd hp (by simp)
    | some u =>
      have hps : parseUrl Sink.absent s =
          some ⟨removeFirstColon u.protocol, u.host, u.pathname,
            buildParams u.searchEntries⟩ := by
        simp [parseUrl, logEventAttempt, hu]
      rw [hps] at hp
      have hpe := Option.some.inj hp
      rw [← hpe]
      exact buildParams_sorted u.searchEntries
  · decide

/-- Witness for C5 at the spec's example input. -/
theorem parse_params_sorted_witness :
    (([("a", "1"), ("b", "2")] : List (String × String)).map
      Prod.fst).Sorted (· ≤ ·) :=
  parse_params_sorted.1 "https://example.com?b=2&a=1"
    ⟨"https", "example.com", "/", [("a", "1"), ("b", "2")]⟩ (by decide)

/-- C6: strings the URL parser rejects yield the explicit failure marker
`none`, and for every input the caller receives either a structured
result or the marker — the embedding of `parseUrl` is a total function,
its try/catch converting the only exceptions into `none`. -/
theorem parse_failure_marker :
    (∀ s, urlParse s = none → parseUrl Sink.absent s = none) ∧
    (∀ s, parseUrl Sink.absent s = none ∨
      ∃ p, parseUrl Sink.absent s = some p) ∧
    parseUrl Sink.absent "not a url" = none := by
  refine ⟨?_, ?_, rfl⟩
  · intro s hs
    simp [parseUrl, logEventAttempt, hs]
  · intro s
    cases h : parseUrl Sink.absent s with
    | none => exact Or.inl rfl
    | some p => exact Or.inr ⟨p, rfl⟩

/-- Witness for C6 at a protocol-less input. -/
theorem parse_failure_marker_witness :
    parseUrl Sink.absent "www.example.com" = none :=
  parse_failure_marker.1 "www.example.com" rfl

/-- C4 (code bug): a succeeding sink never changes the parse outcome,
but a failing sink does — `logEvent` runs inside `parseUrl`'s own
try/catch, so its exception is caught right there and a perfectly valid
URL parses to the failure marker. -/
theorem telemetry_sink_changes_outcome :
    (∀ url, parseUrl Sink.absent url = parseUrl Sink.ok url) ∧
    parseUrl Sink.absent "https://example.com/a" =
      some ⟨"https", "example.com", "/a", []⟩ ∧
    parseUrl Sink.failing "https://example.com/a" = none := by
  refine ⟨fun url => rfl, by decide, rfl⟩

end UrlParser
